import Mathlib

/-!
Verification of the interview-transcript processing frontend.

Shallow embedding of:
* `frontend/src/utils/diff.ts` — HTML escaping, the CJK/Latin tokenizer,
  the LCS length table and the token-level diff reconstruction;
* `frontend/src/components/DiffSidebar.tsx` — the "meaningful block"
  classifier and the `changed` diff-report computation;
* `frontend/src/App.tsx` — the streaming event application
  (`applyDelta`, `markEnd`, `emit`) and per-frame processing of the
  SSE-style stream.

Strings are modelled as `List Char` (JavaScript's `for (const ch of s)`
iterates Unicode code points, which match Lean's `Char`).
-/

namespace InterviewAgents

/-- Set matched by JavaScript's `/\s/` (also the set removed by
`String.prototype.trim`): the source's `whitespaceTest` regex. -/
def whitespaceTest (c : Char) : Bool :=
  c.toNat = 0x09 || c.toNat = 0x0A || c.toNat = 0x0B || c.toNat = 0x0C ||
  c.toNat = 0x0D || c.toNat = 0x20 || c.toNat = 0xA0 || c.toNat = 0x1680 ||
  (0x2000 ≤ c.toNat && c.toNat ≤ 0x200A) || c.toNat = 0x2028 || c.toNat = 0x2029 ||
  c.toNat = 0x202F || c.toNat = 0x205F || c.toNat = 0x3000 || c.toNat = 0xFEFF

/-- The source's `chineseChar` regex `/[一-鿿]/`. -/
def chineseChar (c : Char) : Bool :=
  0x4E00 ≤ c.toNat && c.toNat ≤ 0x9FFF

/-- The source's `asciiPunctuation` regex: the four ASCII punctuation
ranges `0x21..0x2F`, `0x3A..0x40`, `0x5B..0x60`, `0x7B..0x7E`. -/
def asciiPunctuation (c : Char) : Bool :=
  (0x21 ≤ c.toNat && c.toNat ≤ 0x2F) || (0x3A ≤ c.toNat && c.toNat ≤ 0x40) ||
  (0x5B ≤ c.toNat && c.toNat ≤ 0x60) || (0x7B ≤ c.toNat && c.toNat ≤ 0x7E)

/-- The source's `fullWidthPunctuation` regex `/[　-〿＀-･]/`. -/
def fullWidthPunctuation (c : Char) : Bool :=
  (0x3000 ≤ c.toNat && c.toNat ≤ 0x303F) || (0xFF00 ≤ c.toNat && c.toNat ≤ 0xFF65)

/-- `isPunctuation` from `diff.ts`. -/
def isPunctuation (c : Char) : Bool :=
  asciiPunctuation c || fullWidthPunctuation c

/-- One global single-character replacement, modelling
`s.replace(/c/g, r)` for a single target character `c`. -/
def replaceChar (t : Char) (r : List Char) (l : List Char) : List Char :=
  l.flatMap fun c => if c = t then r else [c]

/-- `escapeHtml` from `diff.ts`: replace every `&`, then every `<`,
then every `>` (in that order, as the source chains `.replace`). -/
def escapeHtml (s : List Char) : List Char :=
  replaceChar '>' "&gt;".data (replaceChar '<' "&lt;".data (replaceChar '&' "&amp;".data s))

/-- `pushBuffer` from `tokenize`: flush the pending run into the token
list when it is non-empty. -/
def pushBuffer (tokens : List (List Char)) (buffer : List Char) : List (List Char) :=
  if buffer = [] then tokens else tokens ++ [buffer]

/-- The whitespace branch of `tokenize`'s loop body: if the last token
ends in a whitespace character, extend it with `ch`; otherwise push a
fresh single-character token (`last && whitespaceTest.test(last[last.length-1] ?? '')`
is false both for a missing and for an empty last token, and
`whitespaceTest.test('')` is false). -/
def wsAppend (tokens : List (List Char)) (ch : Char) : List (List Char) :=
  match tokens.getLast? with
  | some last =>
    match last.getLast? with
    | some lc =>
      if whitespaceTest lc then tokens.dropLast ++ [last ++ [ch]] else tokens ++ [[ch]]
    | none => tokens ++ [[ch]]
  | none => tokens ++ [[ch]]

/-- One iteration of `tokenize`'s `for (const ch of input)` loop, acting
on the state `(tokens, buffer)`. -/
def tokStep (acc : List (List Char) × List Char) (ch : Char) : List (List Char) × List Char :=
  if whitespaceTest ch then (wsAppend (pushBuffer acc.1 acc.2) ch, [])
  else if chineseChar ch || isPunctuation ch then (pushBuffer acc.1 acc.2 ++ [[ch]], [])
  else (acc.1, acc.2 ++ [ch])

/-- `tokenize` from `diff.ts`. The source's `if (!input) return []`
short-circuit coincides with the fold over the empty list. -/
def tokenize (input : List Char) : List (List Char) :=
  let r := input.foldl tokStep ([], [])
  pushBuffer r.1 r.2

/-- Inner recursion of `lcsLen`, structural in the second sequence;
`lcs_xs` is the already-constructed function `lcsLen xs`. -/
def lcsAux {α : Type} [DecidableEq α] (x : α) (lcs_xs : List α → Nat) : List α → Nat
  | [] => 0
  | y :: ys => if x = y then lcs_xs ys + 1 else max (lcs_xs (y :: ys)) (lcsAux x lcs_xs ys)

/-- Length of the longest common subsequence of two token sequences.
The source's `lcsMatrix` memoizes exactly this recurrence: the matrix
entry `dp[i][j]` equals `lcsLen (a.drop i) (b.drop j)` — `dp[i][j] = 0`
when either suffix is empty, otherwise
`a[i] == b[j] ? dp[i+1][j+1] + 1 : max(dp[i+1][j], dp[i][j+1])`. -/
def lcsLen {α : Type} [DecidableEq α] : List α → List α → Nat
  | [], _ => 0
  | x :: xs, ys => lcsAux x (lcsLen xs) ys

/-- A tagged diff segment (the DiffSegment entity); the source emits the
corresponding HTML spans directly, rendered by `segHtml` below. -/
inductive DiffSegment where
  | unchanged : List Char → DiffSegment
  | deleted : List Char → DiffSegment
  | inserted : List Char → DiffSegment
deriving DecidableEq

/-- Inner recursion of `diffWalk`, structural in the second sequence;
`walk_xs` is the already-constructed function `diffWalk xs`.
The first sequence is `x :: xs` throughout. -/
def diffWalkAux (x : List Char) (xs : List (List Char))
    (walk_xs : List (List Char) → List DiffSegment) : List (List Char) → List DiffSegment
  | [] => (x :: xs).map DiffSegment.deleted
  | y :: ys =>
    if x = y then DiffSegment.unchanged x :: walk_xs ys
    else if lcsLen xs (y :: ys) ≥ lcsLen (x :: xs) ys then
      DiffSegment.deleted x :: walk_xs (y :: ys)
    else
      DiffSegment.inserted y :: diffWalkAux x xs walk_xs ys

/-- The reconstruction loop of `diffToHtml` (`while (i < at.length && j < bt.length)`
followed by the two flush loops), with the loop state `(i, j)` represented
by the suffixes `at.drop i` and `bt.drop j`. The branch condition
`dp[i+1][j] >= dp[i][j+1]` of the source is, with `at.drop i = x :: xs`
and `bt.drop j = y :: ys`, exactly `lcsLen xs (y :: ys) ≥ lcsLen (x :: xs) ys`. -/
def diffWalk : List (List Char) → List (List Char) → List DiffSegment
  | [], bt => bt.map DiffSegment.inserted
  | x :: xs, bt => diffWalkAux x xs (diffWalk xs) bt

/-- The HTML rendering of one segment, as pushed onto `out` by the source:
unchanged tokens are escaped verbatim, deleted/inserted tokens are wrapped
in `diff-del` / `diff-ins` spans. -/
def segHtml : DiffSegment → List Char
  | DiffSegment.unchanged t => escapeHtml t
  | DiffSegment.deleted t => "<span class=\"diff-del\">".data ++ escapeHtml t ++ "</span>".data
  | DiffSegment.inserted t => "<span class=\"diff-ins\">".data ++ escapeHtml t ++ "</span>".data

/-- `diffToHtml` from `diff.ts`: short-circuit on identical inputs, else
tokenize both, reconstruct the alignment and join the rendered segments
(`out.join('')`). -/
def diffToHtml (a b : List Char) : List Char :=
  if a = b then escapeHtml a
  else ((diffWalk (tokenize a) (tokenize b)).map segHtml).flatten

/-- The Block entity (`type Block` in `DiffSidebar.tsx` / `App.tsx`):
`timestamp` may be `null`/absent, modelled by `Option`. -/
structure Block where
  id : List Char
  speaker : List Char
  timestamp : Option (List Char)
  content : List Char
  processed : Bool
deriving DecidableEq

/-- `applyDelta` from `App.tsx`: append `text` to the content of every
block whose `id` matches (`b.content || ''` coincides with `b.content`
since content is a total string here). -/
def applyDelta (blocks : List Block) (id text : List Char) : List Block :=
  blocks.map fun b =>
    if b.id = id then { b with content := b.content ++ text } else b

/-- `markEnd` from `App.tsx` (its `setProcessed` update): on the matching
block, `content: text || b.content` keeps the accumulated content when
`text` is empty, and `processed` becomes `true`. -/
def markEnd (blocks : List Block) (id text : List Char) : List Block :=
  blocks.map fun b =>
    if b.id = id then
      { b with content := if text = [] then b.content else text, processed := true }
    else b

/-- The JSON payload of a stream frame, `{ id, text }`; `text` may be
absent (`data.text || ''` at the call sites). -/
structure StreamPayload where
  id : List Char
  text : Option (List Char)
deriving DecidableEq

/-- `emit` from `App.tsx`: dispatch on the event name; any other event
is ignored. -/
def emit (event : List Char) (p : StreamPayload) (blocks : List Block) : List Block :=
  if event = "delta".data then applyDelta blocks p.id (p.text.getD [])
  else if event = "block_end".data then markEnd blocks p.id (p.text.getD [])
  else blocks

/-- JavaScript `String.prototype.trim` (drops the `whitespaceTest` set
from both ends). -/
def jsTrim (l : List Char) : List Char :=
  ((l.dropWhile whitespaceTest).reverse.dropWhile whitespaceTest).reverse

/-- The `event:`/`data:` extraction of `processStream`'s frame loop:
`event` starts as `"message"`, a line starting with `event:` replaces it
by the trimmed remainder, a line starting with `data:` appends its
trimmed remainder to `data`. -/
def frameEventData (lines : List (List Char)) : List Char × List Char :=
  lines.foldl
    (fun acc ln =>
      if List.isPrefixOf "event:".data ln then (jsTrim (ln.drop 6), acc.2)
      else if List.isPrefixOf "data:".data ln then (acc.1, acc.2 ++ jsTrim (ln.drop 5))
      else acc)
    ("message".data, [])

/-- Processing of one raw frame (the body of the inner `while` of
`processStream`, after the `\n\n` split): split into lines, extract
event and data, and when `data` is non-empty hand `JSON.parse(data)` to
`emit`. `JSON.parse` is the platform's parser, modelled by the `parse`
parameter; the source's `try { emit(...) } catch {}` makes a parse
failure (`parse` returning `none`) leave the state untouched. -/
def handleFrame (parse : List Char → Option StreamPayload)
    (blocks : List Block) (raw : List Char) : List Block :=
  let ed := frameEventData (raw.splitOn '\n')
  if ed.2 = [] then blocks
  else
    match parse ed.2 with
    | some payload => emit ed.1 payload blocks
    | none => blocks

/-- The sequence of frames delivered by the stream, applied in order. -/
def processFrames (parse : List Char → Option StreamPayload)
    (blocks : List Block) (frames : List (List Char)) : List Block :=
  frames.foldl (handleFrame parse) blocks

/-- `normalize` from `DiffSidebar.tsx`: trim a string, empty for
`null`/`undefined`. -/
def normalize (value : Option (List Char)) : List Char :=
  match value with
  | some s => jsTrim s
  | none => []

/-- The `/^\d/` test of `isMeaningfulBlock` (JavaScript `\d` is ASCII
`0`-`9`). -/
def startsWithDigit (l : List Char) : Bool :=
  match l.head? with
  | some c => c.isDigit
  | none => false

/-- `isMeaningfulBlock` from `DiffSidebar.tsx` (the argument may be
`undefined`, modelled by `Option`). -/
def isMeaningfulBlock : Option Block → Bool
  | none => false
  | some block =>
    let speaker := normalize (some block.speaker)
    let timestamp := normalize (some (block.timestamp.getD []))
    if speaker = [] || timestamp = [] then false
    else if startsWithDigit speaker then false
    else if !(timestamp.contains ':') then false
    else true

/-- One entry of the `changed` report: `{ id, title, html }`. -/
structure DiffEntry where
  id : List Char
  title : List Char
  html : List Char
deriving DecidableEq

/-- The `procById` map of `DiffSidebar.tsx`: built by
`procList.forEach(b => { if (b?.id) procById.set(b.id, b) })`, so lookup
returns the last block in the list with that (non-empty) id. -/
def lookupById (procList : List Block) (id : List Char) : Option Block :=
  procList.foldl
    (fun acc b => if b.id ≠ [] ∧ b.id = id then some b else acc) none

/-- `buildTitle` from `DiffSidebar.tsx`: speaker and bracketed timestamp
when truthy (non-empty), joined by a space, else the fallback label. -/
def buildTitle (block : Option Block) (fallback : List Char) : List Char :=
  match block with
  | none => fallback
  | some b =>
    let parts : List (List Char) :=
      (if b.speaker ≠ [] then [b.speaker] else []) ++
      (match b.timestamp with
       | some t => if t ≠ [] then ["[".data ++ t ++ "]".data] else []
       | none => [])
    if parts ≠ [] then List.intercalate " ".data parts else fallback

/-- The `matchById` / `matchByIndex` pair computed for one original
block at `index` in the first `forEach` of `changed`:
`matchById = orig.id ? procById.get(orig.id) : undefined` and
`matchByIndex = matchById ? undefined : procList[index]`. -/
def loop1Match (procList : List Block) (orig : Block) (index : Nat) :
    Option Block × Option Block :=
  let matchById := if orig.id ≠ [] then lookupById procList orig.id else none
  let matchByIndex := if matchById.isSome then none else procList[index]?
  (matchById, matchByIndex)

/-- The entry pushed (or not) by the first `forEach` of `changed` for
one original block: skip non-meaningful originals, pair by id with
positional fallback (`counterpart = matchById ?? matchByIndex`), skip a
pair whose counterpart is not meaningful, and report only changed
contents. -/
def loop1Entry (procList : List Block) (orig : Block) (index : Nat) : Option DiffEntry :=
  if !isMeaningfulBlock (some orig) then none
  else
    let m := loop1Match procList orig index
    let counterpart := m.1.orElse fun _ => m.2
    let left := orig.content
    let right := (counterpart.map Block.content).getD []
    if counterpart.isSome ∧ !isMeaningfulBlock counterpart then none
    else if left ≠ right then
      some
        { id := if orig.id ≠ [] then orig.id else "original-".data ++ (toString index).data
          title := buildTitle (some orig) ("原文块 #".data ++ (toString (index + 1)).data)
          html := diffToHtml left right }
    else none

/-- The entries of the first `forEach`, in original order; `i` is the
index of the first element of `origs` in the original list. -/
def loop1Entries (procList : List Block) : Nat → List Block → List DiffEntry
  | _, [] => []
  | i, orig :: rest =>
    (loop1Entry procList orig i).toList ++ loop1Entries procList (i + 1) rest

/-- The `consumedIds` set after the first `forEach`: for every
meaningful original whose `matchById` exists and has a truthy id
(`if (matchById?.id) consumedIds.add(matchById.id)`), that id. -/
def consumedIds (procList : List Block) : Nat → List Block → List (List Char)
  | _, [] => []
  | i, orig :: rest =>
    (if isMeaningfulBlock (some orig) then
      match (loop1Match procList orig i).1 with
      | some m => if m.id ≠ [] then [m.id] else []
      | none => []
     else []) ++ consumedIds procList (i + 1) rest

/-- The `consumedIndexes` set after the first `forEach`: the index of
every meaningful original with no id match but a positional counterpart
(`if (!matchById && counterpart) consumedIndexes.add(index)`). -/
def consumedIndexes (procList : List Block) : Nat → List Block → List Nat
  | _, [] => []
  | i, orig :: rest =>
    (if isMeaningfulBlock (some orig) then
      let m := loop1Match procList orig i
      if m.1.isNone ∧ m.2.isSome then [i] else []
     else []) ++ consumedIndexes procList (i + 1) rest

/-- The entry pushed (or not) by the second `forEach` of `changed` for
one processed block at `index`: skip non-meaningful blocks and blocks
consumed by the first pass; the rest are reported as wholly inserted
(`diffToHtml('', block.content ?? '')`). -/
def loop2Entry (procList origList : List Block) (index : Nat) (block : Block) :
    Option DiffEntry :=
  if !isMeaningfulBlock (some block) then none
  else if (block.id ≠ [] ∧ block.id ∈ consumedIds procList 0 origList) ∨
      index ∈ consumedIndexes procList 0 origList then none
  else
    some
      { id := if block.id ≠ [] then block.id else "processed-".data ++ (toString index).data
        title := buildTitle (some block) ("新增块 #".data ++ (toString (index + 1)).data)
        html := diffToHtml [] block.content }

/-- The entries of the second `forEach`, in processed order. -/
def loop2Entries (procList origList : List Block) : Nat → List Block → List DiffEntry
  | _, [] => []
  | i, block :: rest =>
    (loop2Entry procList origList i block).toList ++ loop2Entries procList origList (i + 1) rest

/-- The `changed` computation of `DiffSidebar.tsx`: the first pass over
the originals followed by the second pass over the processed list
(`processed ?? []`). -/
def changed (origList : List Block) (processedOpt : Option (List Block)) : List DiffEntry :=
  let procList := processedOpt.getD []
  loop1Entries procList 0 origList ++ loop2Entries procList origList 0 procList

/-! ## Helper lemmas -/

lemma pushBuffer_flatten (t : List (List Char)) (b : List Char) :
    (pushBuffer t b).flatten = t.flatten ++ b := by
  by_cases h : b = [] <;> simp [pushBuffer, h]

lemma wsAppend_flatten (t : List (List Char)) (c : Char) :
    (wsAppend t c).flatten = t.flatten ++ [c] := by
  rcases List.eq_nil_or_concat t with h | ⟨l, a, h⟩ <;> subst h
  · simp [wsAppend]
  · rcases List.eq_nil_or_concat a with ha | ⟨a', lc, ha⟩ <;> subst ha
    · simp [wsAppend, List.getLast?_concat]
    · by_cases hws : whitespaceTest lc <;>
        simp [wsAppend, List.getLast?_concat, hws, List.dropLast_concat]

lemma tokStep_flatten (acc : List (List Char) × List Char) (c : Char) :
    (tokStep acc c).1.flatten ++ (tokStep acc c).2 = acc.1.flatten ++ acc.2 ++ [c] := by
  by_cases h1 : whitespaceTest c
  · simp [tokStep, h1, wsAppend_flatten, pushBuffer_flatten]
  · by_cases h2 : chineseChar c || isPunctuation c <;>
      simp [tokStep, h1, h2, pushBuffer_flatten]

lemma foldl_tokStep_flatten (input : List Char) : ∀ t b,
    ((input.foldl tokStep (t, b)).1).flatten ++ (input.foldl tokStep (t, b)).2
      = t.flatten ++ b ++ input := by
  induction input with
  | nil => intro t b; simp
  | cons c cs ih =>
    intro t b
    rw [List.foldl_cons]
    have hstep := tokStep_flatten (t, b) c
    have hrec := ih (tokStep (t, b) c).1 (tokStep (t, b) c).2
    simp only [Prod.mk.eta] at hrec
    rw [hrec, hstep]
    simp

/-- The tokens of `tokenize` concatenate back to the input. -/
lemma tokenize_flatten (l : List Char) : (tokenize l).flatten = l := by
  unfold tokenize
  have := foldl_tokStep_flatten l [] []
  simp only [List.flatten_nil, List.nil_append] at this
  rw [pushBuffer_flatten, this]

lemma replaceChar_append (t : Char) (r x y : List Char) :
    replaceChar t r (x ++ y) = replaceChar t r x ++ replaceChar t r y := by
  simp [replaceChar]

lemma escapeHtml_append (x y : List Char) :
    escapeHtml (x ++ y) = escapeHtml x ++ escapeHtml y := by
  simp [escapeHtml, replaceChar_append]

lemma escapeHtml_flatten (L : List (List Char)) :
    escapeHtml L.flatten = (L.map escapeHtml).flatten := by
  induction L with
  | nil => rfl
  | cons x xs ih => simp [escapeHtml_append, ih]

/-- Along a common prefix the reconstruction emits unchanged segments,
and once the first sequence is exhausted the rest of the second is all
insertions. -/
lemma diffWalk_self_append (t s : List (List Char)) :
    diffWalk t (t ++ s) = t.map DiffSegment.unchanged ++ s.map DiffSegment.inserted := by
  induction t with
  | nil => simp [diffWalk]
  | cons x xs ih => simp [diffWalk, diffWalkAux, ih]

/-! ## C1 — tie-break in LCS reconstruction -/

/-- C1: in the reconstruction walk, equal current tokens emit an
unchanged segment and advance both sequences; on unequal tokens with a
dp tie (`dp[i+1][j] = dp[i][j+1]`, i.e. equal remaining-LCS score for
the two branches), the deletion branch is taken rather than the
insertion branch. The loop state `(i, j)` is the pair of suffixes
`x :: xs`, `y :: ys`, so `dp[i+1][j]` is `lcsLen xs (y :: ys)` and
`dp[i][j+1]` is `lcsLen (x :: xs) ys`. -/
theorem lcs_tiebreak_prefers_deletion :
    (∀ (x y : List Char) (xs ys : List (List Char)), x = y →
      diffWalk (x :: xs) (y :: ys) = DiffSegment.unchanged x :: diffWalk xs ys) ∧
    (∀ (x y : List Char) (xs ys : List (List Char)), x ≠ y →
      lcsLen xs (y :: ys) = lcsLen (x :: xs) ys →
      diffWalk (x :: xs) (y :: ys) = DiffSegment.deleted x :: diffWalk xs (y :: ys)) := by
  constructor
  · intro x y xs ys hxy
    subst hxy
    simp [diffWalk, diffWalkAux]
  · intro x y xs ys hxy htie
    have hge : lcsLen xs (y :: ys) ≥ lcsLen (x :: xs) ys := ge_of_eq htie
    simp [diffWalk, diffWalkAux, hxy, hge]

theorem lcs_tiebreak_prefers_deletion_witness :
    diffWalk [['a']] [['a']] = DiffSegment.unchanged ['a'] :: diffWalk [] [] ∧
    diffWalk [['a']] [['b']] = DiffSegment.deleted ['a'] :: diffWalk [] [['b']] :=
  ⟨lcs_tiebreak_prefers_deletion.1 ['a'] ['a'] [] [] rfl,
   lcs_tiebreak_prefers_deletion.2 ['a'] ['b'] [] [] (by decide) (by decide)⟩

/-! ## C2 — identical inputs short-circuit -/

/-- C2: `diffToHtml a a` is the escaped original — a single unchanged
segment with no deleted or inserted span — for every `a`, the empty
string included; the `if (a === b)` short-circuit decides this before
the LCS algorithm runs. -/
theorem diff_identical_short_circuit (a : List Char) : diffToHtml a a = escapeHtml a := by
  simp [diffToHtml]

/-! ## C3 — append-only change -/

/-- C3 (counterexample): with `a = "ab"` and `suffix = "c"` the claimed
all-unchanged-then-all-inserted shape fails — the suffix extends the
final Latin token, so `"abc"` tokenizes as one token, the walk emits a
deleted segment for `"ab"`, and the rendered HTML carries a `diff-del`
span. -/
theorem diff_append_cex :
    DiffSegment.deleted "ab".data
        ∈ diffWalk (tokenize "ab".data) (tokenize ("ab".data ++ "c".data)) ∧
    diffToHtml "ab".data ("ab".data ++ "c".data)
        = "<span class=\"diff-del\">ab</span><span class=\"diff-ins\">abc</span>".data := by
  exact ⟨by decide, by decide⟩

/-- C3 (amended): when the suffix starts at a token boundary — i.e.
`tokenize (a ++ suffix) = tokenize a ++ tokenize suffix` — `diff(a, a ++ suffix)`
yields all-unchanged segments over `a`'s tokens followed by all-inserted
segments over `suffix`'s tokens, with no deleted segment, and the HTML
output is the rendering of exactly those segments. -/
theorem diff_append_token_boundary (a s : List Char)
    (h : tokenize (a ++ s) = tokenize a ++ tokenize s) :
    diffWalk (tokenize a) (tokenize (a ++ s))
        = (tokenize a).map DiffSegment.unchanged ++ (tokenize s).map DiffSegment.inserted ∧
    diffToHtml a (a ++ s)
        = (((tokenize a).map DiffSegment.unchanged
            ++ (tokenize s).map DiffSegment.inserted).map segHtml).flatten := by
  have h1 : diffWalk (tokenize a) (tokenize (a ++ s))
      = (tokenize a).map DiffSegment.unchanged ++ (tokenize s).map DiffSegment.inserted := by
    rw [h]; exact diffWalk_self_append _ _
  refine ⟨h1, ?_⟩
  by_cases hs : a = a ++ s
  · have hlen := congrArg List.length hs
    simp only [List.length_append] at hlen
    have hs' : s = [] := List.eq_nil_of_length_eq_zero (by omega)
    subst hs'
    have htok : tokenize ([] : List Char) = [] := rfl
    rw [List.append_nil, diffToHtml, if_pos rfl, htok]
    simp only [List.map_nil, List.append_nil, List.map_map]
    have hcomp : segHtml ∘ DiffSegment.unchanged = escapeHtml := rfl
    rw [hcomp, ← escapeHtml_flatten, tokenize_flatten]
  · rw [diffToHtml, if_neg hs, h1]

theorem diff_append_token_boundary_witness :
    tokenize ("你a".data ++ "!b".data) = tokenize "你a".data ++ tokenize "!b".data ∧
    (diffWalk (tokenize "你a".data) (tokenize ("你a".data ++ "!b".data))
        = (tokenize "你a".data).map DiffSegment.unchanged
            ++ (tokenize "!b".data).map DiffSegment.inserted ∧
     diffToHtml "你a".data ("你a".data ++ "!b".data)
        = (((tokenize "你a".data).map DiffSegment.unchanged
            ++ (tokenize "!b".data).map DiffSegment.inserted).map segHtml).flatten) :=
  ⟨by decide, diff_append_token_boundary "你a".data "!b".data (by decide)⟩

/-! ## C4 — delta append, block_end replace -/

/-- C4: a `delta` event for block id `X` appends its text to the content
of the block with id `X`; a `block_end` event replaces that content with
the final text when it is non-empty, keeps the accumulated content when
it is empty, and in both cases sets `processed` to `true`. -/
theorem stream_delta_append_block_end_replace :
    (∀ (blocks : List Block) (id text : List Char) (i : Nat) (b : Block),
      blocks[i]? = some b → b.id = id →
      (applyDelta blocks id text)[i]? = some { b with content := b.content ++ text }) ∧
    (∀ (blocks : List Block) (id text : List Char) (i : Nat) (b : Block),
      blocks[i]? = some b → b.id = id → text ≠ [] →
      (markEnd blocks id text)[i]? = some { b with content := text, processed := true }) ∧
    (∀ (blocks : List Block) (id : List Char) (i : Nat) (b : Block),
      blocks[i]? = some b → b.id = id →
      (markEnd blocks id [])[i]? = some { b with processed := true }) := by
  refine ⟨?_, ?_, ?_⟩
  · intro blocks id text i b hb hid
    simp [applyDelta, List.getElem?_map, hb, hid]
  · intro blocks id text i b hb hid htext
    simp [markEnd, List.getElem?_map, hb, hid, htext]
  · intro blocks id i b hb hid
    simp [markEnd, List.getElem?_map, hb, hid]

theorem stream_delta_append_block_end_replace_witness :
    ((applyDelta [⟨"x".data, [], none, "ab".data, false⟩] "x".data "c".data)[0]?
        = some ⟨"x".data, [], none, "abc".data, false⟩) ∧
    ((markEnd [⟨"x".data, [], none, "ab".data, false⟩] "x".data "final".data)[0]?
        = some ⟨"x".data, [], none, "final".data, true⟩) ∧
    ((markEnd [⟨"x".data, [], none, "ab".data, false⟩] "x".data [])[0]?
        = some ⟨"x".data, [], none, "ab".data, true⟩) :=
  ⟨stream_delta_append_block_end_replace.1
      [⟨"x".data, [], none, "ab".data, false⟩] "x".data "c".data 0 _ rfl rfl,
   stream_delta_append_block_end_replace.2.1
      [⟨"x".data, [], none, "ab".data, false⟩] "x".data "final".data 0 _ rfl rfl (by decide),
   stream_delta_append_block_end_replace.2.2
      [⟨"x".data, [], none, "ab".data, false⟩] "x".data 0 _ rfl rfl⟩

/-! ## C10 — frame condition of event application -/

/-- C10: applying a single `delta` or `block_end` event with block id
`X` leaves every block whose id differs from `X` entirely unchanged; on
a block with id `X` it can change only `content` (and, for `block_end`,
`processed`): `id`, `speaker` and `timestamp` are preserved everywhere,
and `delta` also preserves `processed`. -/
theorem stream_event_frame_condition :
    (∀ (blocks : List Block) (id text : List Char) (i : Nat) (b : Block),
      blocks[i]? = some b → b.id ≠ id → (applyDelta blocks id text)[i]? = some b) ∧
    (∀ (blocks : List Block) (id text : List Char) (i : Nat) (b : Block),
      blocks[i]? = some b → b.id ≠ id → (markEnd blocks id text)[i]? = some b) ∧
    (∀ (blocks : List Block) (id text : List Char) (i : Nat) (b b' : Block),
      blocks[i]? = some b → (applyDelta blocks id text)[i]? = some b' →
      b'.id = b.id ∧ b'.speaker = b.speaker ∧ b'.timestamp = b.timestamp ∧
        b'.processed = b.processed) ∧
    (∀ (blocks : List Block) (id text : List Char) (i : Nat) (b b' : Block),
      blocks[i]? = some b → (markEnd blocks id text)[i]? = some b' →
      b'.id = b.id ∧ b'.speaker = b.speaker ∧ b'.timestamp = b.timestamp) := by
  refine ⟨?_, ?_, ?_, ?_⟩
  · intro blocks id text i b hb hid
    simp [applyDelta, List.getElem?_map, hb, hid]
  · intro blocks id text i b hb hid
    simp [markEnd, List.getElem?_map, hb, hid]
  · intro blocks id text i b b' hb hb'
    rw [applyDelta, List.getElem?_map, hb] at hb'
    simp only [Option.map_some'] at hb'
    by_cases hid : b.id = id <;> simp [hid] at hb' <;> subst hb' <;> simp [hid]
  · intro blocks id text i b b' hb hb'
    rw [markEnd, List.getElem?_map, hb] at hb'
    simp only [Option.map_some'] at hb'
    by_cases hid : b.id = id <;> simp [hid] at hb' <;> subst hb' <;> simp [hid]

theorem stream_event_frame_condition_witness :
    ((applyDelta [⟨"y".data, [], none, "ab".data, false⟩] "x".data "c".data)[0]?
        = some ⟨"y".data, [], none, "ab".data, false⟩) ∧
    ((markEnd [⟨"y".data, [], none, "ab".data, false⟩] "x".data "t".data)[0]?
        = some ⟨"y".data, [], none, "ab".data, false⟩) ∧
    (∀ b' : Block,
      (applyDelta [⟨"x".data, "s".data, none, "ab".data, false⟩] "x".data "c".data)[0]?
          = some b' →
      b'.id = "x".data ∧ b'.speaker = "s".data ∧ b'.timestamp = none ∧ b'.processed = false) ∧
    (∀ b' : Block,
      (markEnd [⟨"x".data, "s".data, none, "ab".data, false⟩] "x".data "t".data)[0]?
          = some b' →
      b'.id = "x".data ∧ b'.speaker = "s".data ∧ b'.timestamp = none) :=
  ⟨stream_event_frame_condition.1
      [⟨"y".data, [], none, "ab".data, false⟩] "x".data "c".data 0 _ rfl (by decide),
   stream_event_frame_condition.2.1
      [⟨"y".data, [], none, "ab".data, false⟩] "x".data "t".data 0 _ rfl (by decide),
   fun b' h => stream_event_frame_condition.2.2.1
      [⟨"x".data, "s".data, none, "ab".data, false⟩] "x".data "c".data 0 _ b' rfl h,
   fun b' h => stream_event_frame_condition.2.2.2
      [⟨"x".data, "s".data, none, "ab".data, false⟩] "x".data "t".data 0 _ b' rfl h⟩

/-! ## C9 — malformed frames are skipped -/

/-- C9: a frame whose `data` payload does not parse as JSON (`parse`
returns `none`, the source's `try { emit(event, JSON.parse(data)) } catch {}`
swallowing the exception) leaves every block unchanged, raises nothing
(`handleFrame` is total), and processing continues with the remaining
frames exactly as if the frame had not been there. -/
theorem malformed_frame_skipped
    (parse : List Char → Option StreamPayload) (blocks : List Block)
    (raw : List Char) (rest : List (List Char))
    (h : parse (frameEventData (raw.splitOn '\n')).2 = none) :
    handleFrame parse blocks raw = blocks ∧
    processFrames parse blocks (raw :: rest) = processFrames parse blocks rest := by
  have hskip : handleFrame parse blocks raw = blocks := by
    rw [handleFrame]
    by_cases hd : (frameEventData (raw.splitOn '\n')).2 = []
    · simp [hd]
    · simp [hd, h]
  exact ⟨hskip, by rw [processFrames, List.foldl_cons, hskip]; rfl⟩

theorem malformed_frame_skipped_witness :
    handleFrame (fun _ => none) [] "event: delta\ndata: oops".data = [] ∧
    processFrames (fun _ => none) [] ["event: delta\ndata: oops".data, "x".data]
      = processFrames (fun _ => none) [] ["x".data] :=
  malformed_frame_skipped (fun _ => none) [] "event: delta\ndata: oops".data
    ["x".data] rfl

/-! ## Tokenizer invariants (for C5 and C6) -/

/-- A character taken by the accumulating branch of `tokenize`: neither
whitespace nor CJK nor punctuation. -/
def otherChar (c : Char) : Prop :=
  whitespaceTest c = false ∧ chineseChar c = false ∧ isPunctuation c = false

/-- A non-empty token consisting of whitespace characters only. -/
def wsRun (t : List Char) : Prop :=
  t ≠ [] ∧ ∀ c ∈ t, whitespaceTest c = true

/-- No two adjacent tokens both consist of whitespace. -/
def noAdjWs (s t : List Char) : Prop := ¬(wsRun s ∧ wsRun t)

/-- Shape of every token `tokenize` produces: a single non-whitespace
CJK/punctuation character, a whitespace run, or a run of `otherChar`s. -/
def goodToken (t : List Char) : Prop :=
  (∃ c, t = [c] ∧ (chineseChar c || isPunctuation c) = true ∧ whitespaceTest c = false) ∨
  wsRun t ∨ (t ≠ [] ∧ ∀ c ∈ t, otherChar c)

/-- Invariant of `tokenize`'s loop state: tokens are well-shaped, the
buffer holds only accumulating characters, and no two adjacent tokens
are whitespace runs. -/
def TokState (st : List (List Char) × List Char) : Prop :=
  (∀ t ∈ st.1, goodToken t) ∧ (∀ c ∈ st.2, otherChar c) ∧ List.Chain' noAdjWs st.1

lemma chain'_concat_noAdj {l : List (List Char)} {x : List Char}
    (h : List.Chain' noAdjWs l) (hx : ∀ y, l.getLast? = some y → noAdjWs y x) :
    List.Chain' noAdjWs (l ++ [x]) := by
  rw [List.chain'_append]
  refine ⟨h, List.chain'_singleton x, ?_⟩
  intro a ha b hb
  simp only [List.head?_cons, Option.mem_def, Option.some.injEq] at hb
  subst hb
  exact hx a ha

lemma not_goodToken_nil : ¬ goodToken [] := by
  simp [goodToken, wsRun]

lemma pushBuffer_inv {t : List (List Char)} {b : List Char}
    (ht : ∀ u ∈ t, goodToken u) (hb : ∀ c ∈ b, otherChar c)
    (hc : List.Chain' noAdjWs t) :
    (∀ u ∈ pushBuffer t b, goodToken u) ∧ List.Chain' noAdjWs (pushBuffer t b) := by
  by_cases hbe : b = []
  · simpa [pushBuffer, hbe] using ⟨ht, hc⟩
  · rw [pushBuffer, if_neg hbe]
    constructor
    · intro u hu
      rcases List.mem_append.1 hu with h | h
      · exact ht u h
      · simp only [List.mem_singleton] at h
        subst h
        exact Or.inr (Or.inr ⟨hbe, hb⟩)
    · refine chain'_concat_noAdj hc fun y _ => ?_
      rintro ⟨_, hwb⟩
      obtain ⟨c, hcmem⟩ := List.exists_mem_of_ne_nil b hbe
      exact absurd (hwb.2 c hcmem) (by simp [(hb c hcmem).1])

lemma wsAppend_inv {t : List (List Char)} {ch : Char}
    (hws : whitespaceTest ch = true)
    (ht : ∀ u ∈ t, goodToken u) (hc : List.Chain' noAdjWs t) :
    (∀ u ∈ wsAppend t ch, goodToken u) ∧ List.Chain' noAdjWs (wsAppend t ch) := by
  rcases List.eq_nil_or_concat t with rfl | ⟨l, a, rfl⟩
  · constructor
    · intro u hu
      simp only [wsAppend, List.getLast?_nil, List.nil_append, List.mem_singleton] at hu
      subst hu
      exact Or.inr (Or.inl ⟨by simp, by simp [hws]⟩)
    · simp [wsAppend]
  · simp only [List.concat_eq_append] at ht hc ⊢
    have hagood : goodToken a := ht a (by simp)
    rcases List.eq_nil_or_concat a with rfl | ⟨a', lc, rfl⟩
    · exact absurd hagood not_goodToken_nil
    · simp only [List.concat_eq_append] at ht hc hagood ⊢
      have hlcmem : lc ∈ a' ++ [lc] := by simp
      by_cases h : whitespaceTest lc
      · -- merge: extend the last (whitespace-run) token
        have hrw : wsAppend (l ++ [a' ++ [lc]]) ch = l ++ [(a' ++ [lc]) ++ [ch]] := by
          simp [wsAppend, List.getLast?_concat, h, List.dropLast_concat]
        have hwa : wsRun (a' ++ [lc]) := by
          rcases hagood with ⟨c, hceq, _, hcw⟩ | hw | ⟨_, hall⟩
          · rw [hceq] at hlcmem
            simp only [List.mem_singleton] at hlcmem
            subst hlcmem
            exact absurd h (by simp [hcw])
          · exact hw
          · exact absurd (hall lc hlcmem).1 (by simp [h])
        have hgood : goodToken ((a' ++ [lc]) ++ [ch]) := by
          refine Or.inr (Or.inl ⟨by simp, fun c hcmem => ?_⟩)
          rcases List.mem_append.1 hcmem with hmem | hmem
          · exact hwa.2 c hmem
          · simp only [List.mem_singleton] at hmem
            subst hmem
            exact hws
        rw [hrw]
        have hcl : List.Chain' noAdjWs l := (List.chain'_append.1 hc).1
        have hedge := (List.chain'_append.1 hc).2.2
        constructor
        · intro u hu
          rcases List.mem_append.1 hu with hmem | hmem
          · exact ht u (by simp [hmem])
          · simp only [List.mem_singleton] at hmem
            subst hmem
            exact hgood
        · refine chain'_concat_noAdj hcl fun y hy => ?_
          rintro ⟨hwy, hwext⟩
          have : wsRun (a' ++ [lc]) ∧ True := ⟨hwa, trivial⟩
          exact hedge y hy (a' ++ [lc]) (by simp) ⟨hwy, hwa⟩
      · -- push a fresh single-whitespace token
        have hrw : wsAppend (l ++ [a' ++ [lc]]) ch = (l ++ [a' ++ [lc]]) ++ [[ch]] := by
          simp [wsAppend, List.getLast?_concat, h]
        rw [hrw]
        constructor
        · intro u hu
          rcases List.mem_append.1 hu with hmem | hmem
          · exact ht u hmem
          · simp only [List.mem_singleton] at hmem
            subst hmem
            exact Or.inr (Or.inl ⟨by simp, by simp [hws]⟩)
        · refine chain'_concat_noAdj hc fun y hy => ?_
          rw [List.getLast?_concat] at hy
          rcases hy with rfl | hy'
          rintro ⟨hwy, _⟩
          exact absurd (hwy.2 lc hlcmem) (by simp [h])

lemma tokStep_inv {acc : List (List Char) × List Char} (ch : Char)
    (h : TokState acc) : TokState (tokStep acc ch) := by
  obtain ⟨ht, hb, hc⟩ := h
  by_cases h1 : whitespaceTest ch
  · have hp := pushBuffer_inv ht hb hc
    have hw := wsAppend_inv h1 hp.1 hp.2
    refine ⟨?_, ?_, ?_⟩
    · simpa [tokStep, h1] using hw.1
    · simp [tokStep, h1]
    · simpa [tokStep, h1] using hw.2
  · by_cases h2 : chineseChar ch || isPunctuation ch
    · have hp := pushBuffer_inv ht hb hc
      refine ⟨?_, ?_, ?_⟩
      · intro u hu
        simp only [tokStep, h1, Bool.false_eq_true, if_false, h2, if_true] at hu
        rcases List.mem_append.1 hu with hmem | hmem
        · exact hp.1 u hmem
        · simp only [List.mem_singleton] at hmem
          subst hmem
          exact Or.inl ⟨ch, rfl, h2, by simpa using h1⟩
      · simp [tokStep, h1, h2]
      · simp only [tokStep, h1, Bool.false_eq_true, if_false, h2, if_true]
        refine chain'_concat_noAdj hp.2 fun y _ => ?_
        rintro ⟨_, hwch⟩
        exact absurd (hwch.2 ch (by simp)) (by simpa using h1)
    · refine ⟨?_, ?_, ?_⟩
      · simpa [tokStep, h1, h2] using ht
      · intro c hcmem
        simp only [tokStep, h1, Bool.false_eq_true, if_false, h2, if_true] at hcmem
        rcases List.mem_append.1 hcmem with hmem | hmem
        · exact hb c hmem
        · simp only [List.mem_singleton] at hmem
          subst hmem
          have h2' := h2
          simp only [Bool.or_eq_true, not_or, Bool.not_eq_true] at h2'
          exact ⟨by simpa using h1, h2'.1, h2'.2⟩
      · simpa [tokStep, h1, h2] using hc

lemma foldl_tokStep_inv (input : List Char) :
    ∀ acc, TokState acc → TokState (input.foldl tokStep acc) := by
  induction input with
  | nil => intro acc h; exact h
  | cons c cs ih =>
    intro acc h
    rw [List.foldl_cons]
    exact ih _ (tokStep_inv c h)

lemma tokenize_inv (l : List Char) :
    (∀ t ∈ tokenize l, goodToken t) ∧ List.Chain' noAdjWs (tokenize l) := by
  have h0 : TokState ([], []) := ⟨by simp, by simp, by simp⟩
  obtain ⟨ht, hb, hc⟩ := foldl_tokStep_inv l ([], []) h0
  exact pushBuffer_inv ht hb hc

/-! ## C5 — tokenization rules -/

/-- C5: `tokenize` follows the stated rules — every produced token is a
single non-whitespace CJK/punctuation character, a whitespace run, or a
run of other characters accumulated until a boundary; empty input yields
the empty sequence; and on the boundary example
`tokenize("你好 world!")` the output is exactly
`["你", "好", " ", "world", "!"]`. -/
theorem tokenize_rules :
    tokenize "你好 world!".data
      = ["你".data, "好".data, " ".data, "world".data, "!".data] ∧
    tokenize [] = [] ∧
    (∀ (input : List Char) (t : List Char), t ∈ tokenize input →
      (∃ c, t = [c] ∧ (chineseChar c = true ∨ isPunctuation c = true)) ∨
      (t ≠ [] ∧ ∀ c ∈ t, whitespaceTest c = true) ∨
      (t ≠ [] ∧ ∀ c ∈ t,
        whitespaceTest c = false ∧ chineseChar c = false ∧ isPunctuation c = false)) := by
  refine ⟨by decide, rfl, ?_⟩
  intro input t hmem
  rcases (tokenize_inv input).1 t hmem with ⟨c, hceq, hcp, _⟩ | hw | ⟨hne, hall⟩
  · exact Or.inl ⟨c, hceq, by simpa using hcp⟩
  · exact Or.inr (Or.inl hw)
  · exact Or.inr (Or.inr ⟨hne, hall⟩)

theorem tokenize_rules_witness :
    "world".data ∈ tokenize "你好 world!".data ∧
    ((∃ c, "world".data = [c] ∧ (chineseChar c = true ∨ isPunctuation c = true)) ∨
     ("world".data ≠ [] ∧ ∀ c ∈ "world".data, whitespaceTest c = true) ∨
     ("world".data ≠ [] ∧ ∀ c ∈ "world".data,
       whitespaceTest c = false ∧ chineseChar c = false ∧ isPunctuation c = false)) :=
  ⟨by decide, tokenize_rules.2.2 "你好 world!".data "world".data (by decide)⟩

/-! ## C6 — no adjacent whitespace tokens -/

/-- C6: for every input, the token sequence of `tokenize` never contains
two adjacent tokens that both consist of whitespace — a whitespace
character always merges into an immediately preceding whitespace-ending
token instead of opening an adjacent one. -/
theorem tokenize_no_adjacent_whitespace (input : List Char) :
    List.Chain' (fun s t => ¬(wsRun s ∧ wsRun t)) (tokenize input) :=
  (tokenize_inv input).2

/-! ## C7 — meaningful-block classification -/

/-- C7: a Block is classified meaningful iff its trimmed speaker and
trimmed timestamp are both non-empty, the timestamp contains `:`, and
the speaker does not begin with an ASCII digit; the reporter's two
passes produce no entry for any block failing these conditions. -/
theorem meaningful_block_classification :
    (∀ b : Block,
      isMeaningfulBlock (some b) = true ↔
        (jsTrim b.speaker ≠ [] ∧ jsTrim (b.timestamp.getD []) ≠ [] ∧
         (jsTrim (b.timestamp.getD [])).contains ':' = true ∧
         startsWithDigit (jsTrim b.speaker) = false)) ∧
    (∀ (procList : List Block) (orig : Block) (index : Nat),
      isMeaningfulBlock (some orig) = false → loop1Entry procList orig index = none) ∧
    (∀ (procList origList : List Block) (index : Nat) (block : Block),
      isMeaningfulBlock (some block) = false →
      loop2Entry procList origList index block = none) := by
  refine ⟨?_, ?_, ?_⟩
  · intro b
    constructor
    · intro h
      simp only [isMeaningfulBlock, normalize] at h
      by_cases h1 : jsTrim b.speaker = []
      · simp [h1] at h
      · by_cases h2 : jsTrim (b.timestamp.getD []) = []
        · simp [h1, h2] at h
        · by_cases h3 : startsWithDigit (jsTrim b.speaker) = true
          · simp [h1, h2, h3] at h
          · simp only [h1, h2, h3] at h
            simp at h
            exact ⟨h1, h2, by simpa using h, by simpa using h3⟩
    · rintro ⟨h1, h2, h4, h3⟩
      simp [isMeaningfulBlock, normalize, h1, h2, h3]
      simpa using h4
  · intro procList orig index h
    simp [loop1Entry, h]
  · intro procList origList index block h
    simp [loop2Entry, h]

theorem meaningful_block_classification_witness :
    isMeaningfulBlock (some ⟨"b".data, [], none, "x".data, false⟩) = false ∧
    loop1Entry [] ⟨"b".data, [], none, "x".data, false⟩ 0 = none ∧
    loop2Entry [] [] 0 ⟨"b".data, [], none, "x".data, false⟩ = none :=
  ⟨by decide,
   meaningful_block_classification.2.1 [] ⟨"b".data, [], none, "x".data, false⟩ 0 (by decide),
   meaningful_block_classification.2.2 [] [] 0 ⟨"b".data, [], none, "x".data, false⟩ (by decide)⟩

/-! ## Helper lemmas for C8 -/

lemma lookupById_foldl_id (id : List Char) :
    ∀ (l : List Block) (acc : Option Block) (c : Block),
      (∀ b, acc = some b → b.id = id) →
      l.foldl (fun acc b => if b.id ≠ [] ∧ b.id = id then some b else acc) acc = some c →
      c.id = id := by
  intro l
  induction l with
  | nil => intro acc c hacc h; exact hacc c h
  | cons b rest ih =>
    intro acc c hacc h
    rw [List.foldl_cons] at h
    refine ih _ c ?_ h
    intro b' hb'
    by_cases hcond : b.id ≠ [] ∧ b.id = id
    · rw [if_pos hcond] at hb'
      cases hb'
      exact hcond.2
    · rw [if_neg hcond] at hb'
      exact hacc b' hb'

/-- A successful id lookup returns a block carrying the looked-up id. -/
lemma lookupById_id {procList : List Block} {id : List Char} {c : Block}
    (h : lookupById procList id = some c) : c.id = id :=
  lookupById_foldl_id id procList none c (fun _ h' => by cases h') h

/-- Every consumed id is the id of some original block. -/
lemma consumedIds_subset (procList : List Block) :
    ∀ (l : List Block) (k : Nat) (x : List Char),
      x ∈ consumedIds procList k l → ∃ o ∈ l, o.id = x := by
  intro l
  induction l with
  | nil => intro k x h; simp [consumedIds] at h
  | cons orig rest ih =>
    intro k x h
    rw [consumedIds] at h
    rcases List.mem_append.1 h with hx | hx
    · by_cases hm : isMeaningfulBlock (some orig) = true
      · rw [if_pos hm] at hx
        rcases hmatch : (loop1Match procList orig k).1 with _ | m
        · simp only [hmatch] at hx
          simp at hx
        · simp only [hmatch] at hx
          by_cases hmid : m.id ≠ []
          · rw [if_pos hmid] at hx
            simp only [List.mem_singleton] at hx
            subst hx
            refine ⟨orig, by simp, ?_⟩
            rw [loop1Match] at hmatch
            simp only at hmatch
            by_cases hoid : orig.id ≠ []
            · rw [if_pos hoid] at hmatch
              exact (lookupById_id hmatch).symm
            · rw [if_neg hoid] at hmatch
              cases hmatch
          · rw [if_neg hmid] at hx
            simp at hx
      · rw [if_neg hm] at hx
        simp at hx
    · obtain ⟨o, ho, hid⟩ := ih (k + 1) x hx
      exact ⟨o, by simp [ho], hid⟩

/-- Consumed positional indexes are indexes into the original list. -/
lemma consumedIndexes_lt (procList : List Block) :
    ∀ (l : List Block) (k i : Nat),
      i ∈ consumedIndexes procList k l → k ≤ i ∧ i < k + l.length := by
  intro l
  induction l with
  | nil => intro k i h; simp [consumedIndexes] at h
  | cons orig rest ih =>
    intro k i h
    rw [consumedIndexes] at h
    rcases List.mem_append.1 h with hx | hx
    · have : i = k := by
        by_cases hm : isMeaningfulBlock (some orig) = true
        · rw [if_pos hm] at hx
          by_cases hcond : ((loop1Match procList orig k).1.isNone = true)
              ∧ ((loop1Match procList orig k).2.isSome = true)
          · rw [if_pos hcond] at hx
            simpa using hx
          · rw [if_neg hcond] at hx
            cases hx
        · rw [if_neg hm] at hx
          cases hx
      subst this
      simp
    · have := ih (k + 1) i hx
      constructor <;> [omega; (simp only [List.length_cons]; omega)]

/-- An entry produced for position `j` of the processed list is in the
second pass's output. -/
lemma loop2Entries_mem (procList origList : List Block) :
    ∀ (l : List Block) (k j : Nat) (b : Block) (e : DiffEntry),
      l[j]? = some b → loop2Entry procList origList (k + j) b = some e →
      e ∈ loop2Entries procList origList k l := by
  intro l
  induction l with
  | nil => intro k j b e hb; simp at hb
  | cons hd rest ih =>
    intro k j b e hb he
    match j with
    | 0 =>
      simp only [List.getElem?_cons_zero, Option.some.injEq] at hb
      subst hb
      rw [loop2Entries]
      apply List.mem_append.2
      left
      simp only [Nat.add_zero] at he
      simp [he]
    | j' + 1 =>
      simp only [List.getElem?_cons_succ] at hb
      rw [loop2Entries]
      apply List.mem_append.2
      right
      have : k + (j' + 1) = (k + 1) + j' := by omega
      rw [this] at he
      exact ih (k + 1) j' b e hb he

lemma loop1Match_fst (procList : List Block) (orig : Block) (index : Nat) :
    (loop1Match procList orig index).1
      = if orig.id ≠ [] then lookupById procList orig.id else none := rfl

lemma loop1Match_snd (procList : List Block) (orig : Block) (index : Nat) :
    (loop1Match procList orig index).2
      = if (loop1Match procList orig index).1.isSome then none else procList[index]? := rfl

/-- When a meaningful original has a meaningful counterpart with
different content, the first pass produces exactly the id/title/diff
entry of the source. -/
lemma loop1Entry_eq_some {procList : List Block} {orig : Block} {index : Nat} {c : Block}
    (hm : isMeaningfulBlock (some orig) = true)
    (hc : ((loop1Match procList orig index).1).orElse
        (fun _ => (loop1Match procList orig index).2) = some c)
    (hmc : isMeaningfulBlock (some c) = true)
    (hne : orig.content ≠ c.content) :
    loop1Entry procList orig index = some
      { id := if orig.id ≠ [] then orig.id else "original-".data ++ (toString index).data
        title := buildTitle (some orig) ("原文块 #".data ++ (toString (index + 1)).data)
        html := diffToHtml orig.content c.content } := by
  rw [loop1Entry]
  simp only [hm, Bool.not_true, Bool.false_eq_true, if_false, hc]
  have hiff : ¬((some c).isSome = true ∧ ¬isMeaningfulBlock (some c) = true) := by
    simp [hmc]
  rw [if_neg (by simpa using hiff)]
  simp [hne]

/-- When the counterpart has the same content, the first pass produces
no entry. -/
lemma loop1Entry_eq_none {procList : List Block} {orig : Block} {index : Nat} {c : Block}
    (hc : ((loop1Match procList orig index).1).orElse
        (fun _ => (loop1Match procList orig index).2) = some c)
    (heq : orig.content = c.content) :
    loop1Entry procList orig index = none := by
  rw [loop1Entry]
  by_cases hm : isMeaningfulBlock (some orig) = true
  · simp only [hm, Bool.not_true, Bool.false_eq_true, if_false, hc]
    by_cases hmc : isMeaningfulBlock (some c) = true
    · rw [if_neg (by simp [hmc])]
      simp [heq]
    · rw [if_pos (by simp [hmc])]
  · simp [Bool.not_eq_true] at hm
    simp [hm]

/-! ## C8 — diff reporter pairing policy -/

/-- C8: the reporter pairs a block by shared id (first conjunct) with
positional fallback when no id match exists (second conjunct), in each
case diffing the paired contents; a pair with identical contents yields
no entry (third conjunct); and a meaningful block of the rewritten list
that is never paired — no original shares its id and it lies beyond the
originals' positions — appears in the report as a wholly-inserted entry
whose diff is computed against the empty string (fourth conjunct). -/
theorem diff_reporter_pairing :
    (∀ (procList : List Block) (orig : Block) (index : Nat) (c : Block),
      isMeaningfulBlock (some orig) = true →
      orig.id ≠ [] →
      lookupById procList orig.id = some c →
      isMeaningfulBlock (some c) = true →
      orig.content ≠ c.content →
      ∃ e, loop1Entry procList orig index = some e ∧
        e.html = diffToHtml orig.content c.content ∧ e.id = orig.id) ∧
    (∀ (procList : List Block) (orig : Block) (index : Nat) (c : Block),
      isMeaningfulBlock (some orig) = true →
      (orig.id = [] ∨ lookupById procList orig.id = none) →
      procList[index]? = some c →
      isMeaningfulBlock (some c) = true →
      orig.content ≠ c.content →
      ∃ e, loop1Entry procList orig index = some e ∧
        e.html = diffToHtml orig.content c.content) ∧
    (∀ (procList : List Block) (orig : Block) (index : Nat) (c : Block),
      ((orig.id ≠ [] ∧ lookupById procList orig.id = some c) ∨
       ((orig.id = [] ∨ lookupById procList orig.id = none) ∧ procList[index]? = some c)) →
      orig.content = c.content →
      loop1Entry procList orig index = none) ∧
    (∀ (procList origList : List Block) (j : Nat) (b : Block),
      procList[j]? = some b →
      isMeaningfulBlock (some b) = true →
      origList.length ≤ j →
      (∀ o ∈ origList, o.id ≠ b.id) →
      ∃ e ∈ changed origList (some procList), e.html = diffToHtml [] b.content) := by
  have horelse_fst : ∀ (procList : List Block) (orig : Block) (index : Nat) (c : Block),
      orig.id ≠ [] → lookupById procList orig.id = some c →
      ((loop1Match procList orig index).1).orElse
        (fun _ => (loop1Match procList orig index).2) = some c := by
    intro procList orig index c hid hlook
    rw [loop1Match_fst, if_pos hid, hlook]
    rfl
  have horelse_snd : ∀ (procList : List Block) (orig : Block) (index : Nat) (c : Block),
      (orig.id = [] ∨ lookupById procList orig.id = none) → procList[index]? = some c →
      ((loop1Match procList orig index).1).orElse
        (fun _ => (loop1Match procList orig index).2) = some c := by
    intro procList orig index c hid hidx
    have h1 : (loop1Match procList orig index).1 = none := by
      rw [loop1Match_fst]
      rcases hid with h | h
      · rw [if_neg (by simp [h])]
      · by_cases h' : orig.id ≠ []
        · rw [if_pos h', h]
        · rw [if_neg h']
    have h2 : (loop1Match procList orig index).2 = some c := by
      rw [loop1Match_snd, h1]
      simpa using hidx
    rw [h1, h2]
    rfl
  refine ⟨?_, ?_, ?_, ?_⟩
  · intro procList orig index c hm hid hlook hmc hne
    exact ⟨_, loop1Entry_eq_some hm (horelse_fst procList orig index c hid hlook) hmc hne,
      rfl, by simp [hid]⟩
  · intro procList orig index c hm hid hidx hmc hne
    exact ⟨_, loop1Entry_eq_some hm (horelse_snd procList orig index c hid hidx) hmc hne, rfl⟩
  · intro procList orig index c hc heq
    rcases hc with ⟨hid, hlook⟩ | ⟨hid, hidx⟩
    · exact loop1Entry_eq_none (horelse_fst procList orig index c hid hlook) heq
    · exact loop1Entry_eq_none (horelse_snd procList orig index c hid hidx) heq
  · intro procList origList j b hjb hmb hlen hids
    have hskip : ¬((b.id ≠ [] ∧ b.id ∈ consumedIds procList 0 origList) ∨
        j ∈ consumedIndexes procList 0 origList) := by
      rintro (⟨hbne, hmem⟩ | hmem)
      · obtain ⟨o, ho, hoid⟩ := consumedIds_subset procList origList 0 b.id hmem
        exact hids o ho hoid
      · have := consumedIndexes_lt procList origList 0 j hmem
        omega
    obtain ⟨e₀, he, hhtml⟩ : ∃ e₀, loop2Entry procList origList j b = some e₀ ∧
        e₀.html = diffToHtml [] b.content := by
      rw [loop2Entry]
      simp only [hmb, Bool.not_true, Bool.false_eq_true, if_false]
      rw [if_neg hskip]
      exact ⟨_, rfl, rfl⟩
    have hmem2 : e₀ ∈ loop2Entries procList origList 0 procList := by
      refine loop2Entries_mem procList origList procList 0 j b e₀ hjb ?_
      simpa using he
    refine ⟨e₀, ?_, hhtml⟩
    rw [changed]
    exact List.mem_append.2 (Or.inr hmem2)

theorem diff_reporter_pairing_witness :
    (∃ e, loop1Entry [⟨"1".data, "Tom".data, some "00:01".data, "hullo".data, true⟩]
        ⟨"1".data, "Tom".data, some "00:01".data, "hello".data, false⟩ 0 = some e ∧
      e.html = diffToHtml "hello".data "hullo".data ∧ e.id = "1".data) ∧
    (∃ e, loop1Entry [⟨"2".data, "Ann".data, some "00:02".data, "x".data, true⟩]
        ⟨[], "Tom".data, some "00:01".data, "hello".data, false⟩ 0 = some e ∧
      e.html = diffToHtml "hello".data "x".data) ∧
    (loop1Entry [⟨"1".data, "Tom".data, some "00:01".data, "hullo".data, true⟩]
        ⟨"1".data, "Tom".data, some "00:01".data, "hullo".data, false⟩ 0 = none) ∧
    (∃ e ∈ changed [] (some [⟨"9".data, "Ann".data, some "00:09".data, "new".data, true⟩]),
      e.html = diffToHtml [] "new".data) :=
  ⟨diff_reporter_pairing.1
      [⟨"1".data, "Tom".data, some "00:01".data, "hullo".data, true⟩]
      ⟨"1".data, "Tom".data, some "00:01".data, "hello".data, false⟩ 0
      ⟨"1".data, "Tom".data, some "00:01".data, "hullo".data, true⟩
      (by decide) (by decide) (by decide) (by decide) (by decide),
   diff_reporter_pairing.2.1
      [⟨"2".data, "Ann".data, some "00:02".data, "x".data, true⟩]
      ⟨[], "Tom".data, some "00:01".data, "hello".data, false⟩ 0
      ⟨"2".data, "Ann".data, some "00:02".data, "x".data, true⟩
      (by decide) (Or.inl rfl) rfl (by decide) (by decide),
   diff_reporter_pairing.2.2.1
      [⟨"1".data, "Tom".data, some "00:01".data, "hullo".data, true⟩]
      ⟨"1".data, "Tom".data, some "00:01".data, "hullo".data, false⟩ 0
      ⟨"1".data, "Tom".data, some "00:01".data, "hullo".data, true⟩
      (Or.inl ⟨by decide, by decide⟩) rfl,
   diff_reporter_pairing.2.2.2
      [⟨"9".data, "Ann".data, some "00:09".data, "new".data, true⟩] [] 0
      ⟨"9".data, "Ann".data, some "00:09".data, "new".data, true⟩
      rfl (by decide) (by decide) (by simp)⟩

end InterviewAgents
